import Mathlib

/-!
Verification of the collection library in `sanity.h` against its
natural-language specification.

Sequences (`std::vector` and friends) are modelled as Lean `List`s, and
`std::map<K, V>` as a key-sorted association list `List (K × V)`.  Machine
integer arguments (`long n`, `int i`) are modelled as `Nat` where the claims
restrict them to non-negative values, and as `Int` where sign matters
(`range`).  A C++ function that can throw, or whose execution can run into
undefined behavior or non-termination, is modelled as returning `Option`,
with `none` for the failing execution; every `none` case is annotated at the
definition.  Each definition is a direct transcription of the corresponding
function body in `sanity.h`; identifier typos in the source (`vec1` for
`coll1` in `concat`, `kmap` for `map` in `hasKey`) are resolved to the named
parameter and noted in the doc comment.
-/

namespace Sanity

/-- `first(coll)` from sanity.h: throws "Collection is empty." on an empty
collection (`none`), otherwise returns `input[0]`. -/
def first {α : Type} (input : List α) : Option α :=
  match input with
  | [] => none
  | x :: _ => some x

/-- `take(coll, n)` from sanity.h, transcribed with its inverted bound check:
`if (coll.size() > n) return coll; else` copy the range `[begin, begin + n)`.
In the else branch `coll.size() ≤ n`, and the copied range is valid only when
`n ≤ coll.size()`; for `n > coll.size()` the iterator `begin + n` is past the
end, which is undefined behavior, modelled as `none`. -/
def take {α : Type} (coll : List α) (n : Nat) : Option (List α) :=
  if coll.length > n then some coll
  else if n ≤ coll.length then some (List.take n coll)
  else none

/-- `drop(coll, n)` from sanity.h, transcribed with its inverted bound check:
`if (coll.size() > n)` return an empty collection, `else` copy the range
`[begin + n, end)`.  In the else branch the range is valid only when
`n ≤ coll.size()`; for `n > coll.size()` it is undefined behavior (`none`). -/
def drop {α : Type} (coll : List α) (n : Nat) : Option (List α) :=
  if coll.length > n then some []
  else if n ≤ coll.length then some (List.drop n coll)
  else none

/-- `concat(coll1, coll2)` from sanity.h: copy `coll1` into the result, then
push each element of `coll2` in order.  (The body spells the parameters
`vec1`/`vec2`; the intent `coll1`/`coll2` is transcribed.) -/
def concat {α : Type} (coll1 coll2 : List α) : List α :=
  coll1 ++ coll2

/-- The two-index-argument `nth(coll, index, notFound)` from sanity.h,
transcribed with its inverted test:
`return coll.size() >= index ? notFound : coll[index];`.
In the second branch `index > coll.size()`, so `coll[index]` reads past the
end of the buffer: undefined behavior, and `l[index]?` is `none` there. -/
def nth {α : Type} (coll : List α) (index : Nat) (notFound : α) : Option α :=
  if coll.length ≥ index then some notFound
  else coll[index]?

/-- `filter(coll, predicate)` from sanity.h: push exactly the elements with
`predicate(element) == true`, in order. -/
def filter {α : Type} (coll : List α) (predicate : α → Bool) : List α :=
  match coll with
  | [] => []
  | x :: rest => if predicate x then x :: filter rest predicate else filter rest predicate

/-- `remove(coll, predicate)` from sanity.h: `filter` with the negated
predicate. -/
def remove {α : Type} (coll : List α) (predicate : α → Bool) : List α :=
  filter coll (fun elem => !(predicate elem))

/-- Modelled from the spec: `negate(p)` (§8) flips a boolean predicate; no
such helper exists in sanity.h, it is only vocabulary of the properties. -/
def negate {α : Type} (p : α → Bool) : α → Bool :=
  fun x => !(p x)

/-- `isEven(x)` from sanity.h. -/
def isEven (x : Int) : Bool :=
  x % 2 == 0

/-- The loop of `range(start, end, step)` from sanity.h:
`for (i = start; i < end; i += step) result.push_back(i);`.
`fuel` is an upper bound on the number of iterations, a modelling device only:
`range` below always supplies fuel at least the true iteration count whenever
the loop terminates, and `rangeLoop_spec` characterises the result for every
sufficient bound, so the result does not depend on the bound chosen. -/
def rangeLoop (e step : Int) : Nat → Int → List Int
  | 0, _ => []
  | fuel + 1, i => if i < e then i :: rangeLoop e step fuel (i + step) else []

/-- `range(start, end, step)` from sanity.h.  For `step > 0` the loop runs
`ceil((end - start) / step)` times, which `(e - start).toNat` bounds.  For
`step ≤ 0` the loop exits immediately when `start ≥ end` and otherwise never
terminates (`i` only moves away from or stays below `end`); the
non-terminating execution is modelled as `none`. -/
def range (start e step : Int) : Option (List Int) :=
  if 0 < step then some (rangeLoop e step (e - start).toNat start)
  else if start < e then none
  else some []

/-- `interpose`'s loop from sanity.h applied to the elements
`coll[1], …, coll[size-1]`: each iteration pushes the separator and then the
element. -/
def interposeTail {α : Type} (sep : α) : List α → List α
  | [] => []
  | y :: ys => sep :: y :: interposeTail sep ys

/-- `interpose(coll, sep)` from sanity.h: the result starts with
`first(coll)`, which throws "Collection is empty." on an empty collection
(`none`); then for `i` in `[1, size)` the loop pushes `sep` and
`nth(coll, i)` (the in-range, well-defined use of the two-argument `nth`,
which is plain indexing), i.e. it walks the tail of `coll`. -/
def interpose {α : Type} (coll : List α) (sep : α) : Option (List α) :=
  match first coll with
  | none => none
  | some x => some (x :: interposeTail sep coll.tail)

/-- `std::map::find` on the key-sorted association-list model of
`std::map<K, V>`: the entry with the matching key, if any. -/
def mapFind {K V : Type} [DecidableEq K] : List (K × V) → K → Option V
  | [], _ => none
  | kv :: rest, k => if k = kv.1 then some kv.2 else mapFind rest k

/-- The assignment `result[key] = val` on the `std::map` model: insert the
pair keeping keys sorted, overwriting the entry of an existing key. -/
def mapInsert {K V : Type} [LinearOrder K] : List (K × V) → K → V → List (K × V)
  | [], k, v => [(k, v)]
  | kv :: rest, k, v =>
    if k < kv.1 then (k, v) :: kv :: rest
    else if k = kv.1 then (k, v) :: rest
    else kv :: mapInsert rest k v

/-- `zipmap(keys, vals)` from sanity.h: throws ("keys and vals vectors are
different lengths", the spec's `LengthMismatch`) when the sizes differ
(`none`); otherwise runs `result[keys[i]] = vals[i]` for `i = 0 … n-1`.  The
index loop over two equal-length sequences visits exactly the pairs of their
zip, in order. -/
def zipmap {K V : Type} [LinearOrder K] (keys : List K) (vals : List V) :
    Option (List (K × V)) :=
  if keys.length ≠ vals.length then none
  else some ((keys.zip vals).foldl (fun result kv => mapInsert result kv.1 kv.2) [])

/-- The claim's "the value at the later index wins", read off the index pairs
directly: the value of the last pair whose key is `k`, if any. -/
def lookupLast {K V : Type} [DecidableEq K] (k : K) : List (K × V) → Option V
  | [] => none
  | kv :: rest =>
    match lookupLast k rest with
    | some v => some v
    | none => if k = kv.1 then some kv.2 else none

/-- `hasKey(map, key)` from sanity.h: whether `find` hits.  (The body spells
the parameter `kmap`; the intent `map` is transcribed.) -/
def hasKey {K V : Type} [DecidableEq K] (m : List (K × V)) (key : K) : Bool :=
  (mapFind m key).isSome

/-- `dissoc(map, key)` from sanity.h.  When the key is present the code
copies the map and runs `delete result[key]`: this destroys the value the
entry points to but never erases the entry itself (`std::map::erase` is not
called), so the association structure returned is the unchanged copy; when
the key is absent it returns an unchanged copy of `map`. -/
def dissoc {K V : Type} [DecidableEq K] (m : List (K × V)) (key : K) :
    List (K × V) :=
  if hasKey m key then m else m

/-- The filesystem, as `slurp` can observe it: the content behind each path,
`none` for a missing file. -/
def FileSystem : Type :=
  String → Option String

/-- `slurp(file)` from sanity.h: the body opens the fixed name `"file.txt"`
and ignores the `file` argument entirely; when `"file.txt"` is missing the
stream reads nothing and the empty string is returned. -/
def slurp (fs : FileSystem) (file : String) : String :=
  match fs "file.txt" with
  | some content => content
  | none => ""

/-- C2 fails on the code: at `s = [1,2,3]`, `n = 1` the source `take` returns
the whole sequence `[1,2,3]` where the claim requires the first element `[1]`,
and the source `drop` returns `[]` where the claim requires `[2,3]`. -/
theorem take_drop_bug :
    take [1, 2, 3] 1 = some [1, 2, 3] ∧ drop [1, 2, 3] 1 = some ([] : List Nat) ∧
      some [1, 2, 3] ≠ some [1] ∧ some ([] : List Nat) ≠ some [2, 3] := by
  decide

/-- C3: for every sequence `s` and `0 ≤ n ≤ length s`,
`concat(take(s, n), drop(s, n))` equals `s`.  (On the source code this holds
because `take` returns the whole sequence and `drop` returns the empty one for
every such `n`.) -/
theorem take_drop_concat {α : Type} (s : List α) (n : Nat) (h : n ≤ s.length) :
    (take s n).bind (fun t => (drop s n).map (fun d => concat t d)) = some s := by
  unfold take drop concat
  rcases lt_or_ge n s.length with hlt | hge
  · simp [Nat.lt_of_lt_of_le hlt (Nat.le_refl _), hlt]
  · have heq : n = s.length := Nat.le_antisymm h hge
    subst heq
    simp

/-- Witness for C3 at `s = [1,2,3]`, `n = 2`. -/
theorem take_drop_concat_witness :
    (take [1, 2, 3] 2).bind (fun t => (drop [1, 2, 3] 2).map (fun d => concat t d)) =
      some [1, 2, 3] :=
  take_drop_concat [1, 2, 3] 2 (by decide)

/-- C4 fails on the code: at `coll = [10,20,30]`, `i = 1`, `notFound = 99`
(an in-range index) the source `nth` returns the `notFound` value `99` where
the claim requires the element `20`. -/
theorem nth_notFound_bug :
    nth [10, 20, 30] 1 99 = some 99 ∧ some 99 ≠ some 20 := by
  decide

/-- `filter` agrees with `List.filter`. -/
lemma filter_eq_listFilter {α : Type} (s : List α) (p : α → Bool) :
    filter s p = List.filter p s := by
  induction s with
  | nil => rfl
  | cons x rest ih =>
      by_cases hp : p x = true
      · simp [filter, hp, ih, List.filter_cons]
      · simp [filter, hp, ih, List.filter_cons]

/-- C5: `filter(s, p)` equals `remove(s, negate(p))`; every element of
`filter(s, p)` satisfies `p`; and the lengths of `filter(s, p)` and
`remove(s, p)` sum to the length of `s`. -/
theorem filter_remove_props {α : Type} (s : List α) (p : α → Bool) :
    filter s p = remove s (negate p) ∧
      (∀ x, x ∈ filter s p → p x = true) ∧
      (filter s p).length + (remove s p).length = s.length := by
  refine ⟨?_, ?_, ?_⟩
  · simp [remove, negate]
  · intro x hx
    rw [filter_eq_listFilter] at hx
    exact List.of_mem_filter hx
  · induction s with
    | nil => rfl
    | cons x rest ih =>
        by_cases hp : p x = true
        · simp [filter, remove, negate, hp] at ih ⊢
          omega
        · simp [filter, remove, negate, hp] at ih ⊢
          omega

/-- Witness for C5 at `s = [1,2,3,4]`, `p = isEven`. -/
theorem filter_remove_props_witness :
    2 ∈ filter [1, 2, 3, 4] isEven ∧ isEven 2 = true :=
  ⟨by decide, (filter_remove_props [1, 2, 3, 4] isEven).2.1 2 (by decide)⟩

/-- For every sufficient fuel bound, the loop of `range` with positive `step`
started at `i` produces the ascending progression `i, i + step, …` of exactly
the values below `e`: the element at position `k` is `i + step * k`, every
element lies in `[i, e)`, and the progression is maximal (its next element
would already be `≥ e`). -/
lemma rangeLoop_spec (e step : Int) (hstep : 0 < step) :
    ∀ (fuel : Nat) (i : Int), (e - i).toNat ≤ fuel →
      (∀ k : Nat, k < (rangeLoop e step fuel i).length →
          (rangeLoop e step fuel i)[k]? = some (i + step * k)) ∧
      (∀ x, x ∈ rangeLoop e step fuel i → i ≤ x ∧ x < e) ∧
      e ≤ i + step * (rangeLoop e step fuel i).length := by
  intro fuel
  induction fuel with
  | zero =>
      intro i hfuel
      have hie : e ≤ i := by omega
      refine ⟨?_, ?_, ?_⟩
      · intro k hk
        simp [rangeLoop] at hk
      · intro x hx
        simp [rangeLoop] at hx
      · simpa [rangeLoop] using hie
  | succ fuel ih =>
      intro i hfuel
      by_cases hie : i < e
      · have hfuel2 : (e - (i + step)).toNat ≤ fuel := by omega
        obtain ⟨h1, h2, h3⟩ := ih (i + step) hfuel2
        refine ⟨?_, ?_, ?_⟩
        · intro k hk
          match k with
          | 0 => simp [rangeLoop, hie]
          | Nat.succ j =>
              simp only [rangeLoop, if_pos hie, List.length_cons,
                Nat.succ_lt_succ_iff] at hk ⊢
              rw [List.getElem?_cons_succ, h1 j hk]
              congr 1
              push_cast
              ring
        · intro x hx
          simp only [rangeLoop, if_pos hie, List.mem_cons] at hx
          rcases hx with rfl | hx
          · exact ⟨le_refl x, hie⟩
          · obtain ⟨hle, hlt⟩ := h2 x hx
            exact ⟨by linarith, hlt⟩
        · simp only [rangeLoop, if_pos hie, List.length_cons]
          have hcast :
              step * (((rangeLoop e step fuel (i + step)).length : Int) + 1) =
                step * (rangeLoop e step fuel (i + step)).length + step := by
            ring
          push_cast
          linarith
      · have hie2 : e ≤ i := by omega
        refine ⟨?_, ?_, ?_⟩
        · intro k hk
          simp [rangeLoop, hie] at hk
        · intro x hx
          simp [rangeLoop, hie] at hx
        · simpa [rangeLoop, hie] using hie2

/-- C6 (amended): when `step > 0`, `range(start, end, step)` returns the
maximal ascending arithmetic progression `start, start + step, …` of values in
the half-open interval `[start, end)`; when `step ≤ 0`, it returns the empty
sequence if `start ≥ end` and fails to terminate if `start < end` — no
`InvalidArgument` is raised for `step = 0` and no descending progression is
produced for `step < 0`. -/
theorem range_amended (start e step : Int) :
    (0 < step →
      ∃ l, range start e step = some l ∧
        (∀ k : Nat, k < l.length → l[k]? = some (start + step * k)) ∧
        (∀ x, x ∈ l → start ≤ x ∧ x < e) ∧
        e ≤ start + step * l.length) ∧
    (step ≤ 0 → range start e step = if start < e then none else some []) := by
  constructor
  · intro hstep
    refine ⟨rangeLoop e step (e - start).toNat start, ?_, ?_⟩
    · simp [range, hstep]
    · exact rangeLoop_spec e step hstep (e - start).toNat start (le_refl _)
  · intro hstep
    have hns : ¬ 0 < step := by omega
    by_cases h : start < e
    · simp [range, hns, h]
    · simp [range, hns, h]

/-- Witness for C6 (amended) at `start = 0`, `end = 5`, `step = 0`: the zero
step does not raise `InvalidArgument`; since `start < end` the loop fails to
terminate. -/
theorem range_amended_witness :
    range 0 5 0 = if (0 : Int) < 5 then none else some [] :=
  (range_amended 0 5 0).2 (by decide)

/-- C6 fails on the code as claimed: `range(10, 0, -2)` returns the empty
sequence where the claim requires the descending progression
`[10, 8, 6, 4, 2]` over `[0, 10)` read downward from `10`. -/
theorem range_descending_empty :
    range 10 0 (-2) = some [] ∧ some ([] : List Int) ≠ some [10, 8, 6, 4, 2] := by
  constructor
  · simp [range]
  · decide

/-- `List.intersperse` — the specification's "sep inserted between every
adjacent pair" — restricted to a nonempty list is exactly the head followed
by the source loop over the tail. -/
lemma intersperse_eq_cons_interposeTail {α : Type} (sep x : α) (ys : List α) :
    List.intersperse sep (x :: ys) = x :: interposeTail sep ys := by
  induction ys generalizing x with
  | nil => simp [interposeTail]
  | cons y t ih =>
      rw [List.intersperse_cons_cons, interposeTail, ih y]

/-- C9 (amended): for nonempty `s`, `interpose(s, sep)` returns `s` with
`sep` inserted between every adjacent pair of elements; on the empty sequence
it fails with `EmptyCollection` (propagated from `first`) instead of
returning the empty sequence. -/
theorem interpose_amended {α : Type} (coll : List α) (sep : α) :
    (coll = [] → interpose coll sep = none) ∧
    (coll ≠ [] → interpose coll sep = some (List.intersperse sep coll)) := by
  constructor
  · intro h
    subst h
    rfl
  · intro h
    match coll with
    | [] => exact absurd rfl h
    | x :: ys =>
        rw [intersperse_eq_cons_interposeTail]
        rfl

/-- Witness for C9 (amended) at `s = [1, 2]`, `sep = 0`. -/
theorem interpose_amended_witness :
    interpose [1, 2] 0 = some (List.intersperse 0 [1, 2]) :=
  (interpose_amended [1, 2] 0).2 (by decide)

/-- C9 fails on the code: `interpose` on the empty sequence throws (the call
to `first` fails) where the claim requires it to return the empty sequence
without failing. -/
theorem interpose_empty_fails :
    interpose ([] : List Nat) 0 = none ∧ none ≠ some ([] : List Nat) := by
  decide

/-- Inserting then finding: the inserted key maps to the new value and every
other key is unaffected.  (No sortedness assumption is needed.) -/
lemma mapFind_mapInsert {K V : Type} [LinearOrder K] (m : List (K × V))
    (k k' : K) (v : V) :
    mapFind (mapInsert m k v) k' = if k' = k then some v else mapFind m k' := by
  induction m with
  | nil => simp [mapInsert, mapFind]
  | cons kv rest ih =>
      by_cases h1 : k < kv.1
      · simp [mapInsert, h1, mapFind]
      · by_cases h2 : k = kv.1
        · simp only [mapInsert, if_neg h1, if_pos h2, mapFind, h2]
          by_cases hk : k' = kv.1
          · simp [mapFind, hk]
          · simp [mapFind, hk]
        · simp only [mapInsert, if_neg h1, if_neg h2, mapFind, ih]
          by_cases hk : k' = kv.1
          · simp [hk, Ne.symm h2]
          · simp [hk]

/-- Finding in the map built by the assignment loop: the last assignment to
the key wins, and a key never assigned falls back to the initial map. -/
lemma mapFind_foldl {K V : Type} [LinearOrder K] (l : List (K × V)) :
    ∀ (init : List (K × V)) (k : K),
      mapFind (l.foldl (fun result kv => mapInsert result kv.1 kv.2) init) k =
        match lookupLast k l with
        | some v => some v
        | none => mapFind init k := by
  induction l with
  | nil =>
      intro init k
      simp [lookupLast]
  | cons p l ih =>
      intro init k
      simp only [List.foldl_cons]
      rw [ih]
      cases h : lookupLast k l with
      | some v => simp [lookupLast, h]
      | none =>
          simp only [lookupLast, h, mapFind_mapInsert]
          by_cases hk : k = p.1
          · simp [hk]
          · simp [hk]

/-- C7: `zipmap(keys, vals)` fails with `LengthMismatch` exactly when the two
sequences differ in length; on equal lengths the result maps each key to the
value at the same index, the value at the later index winning when a key
occurs at several indices. -/
theorem zipmap_spec {K V : Type} [LinearOrder K] (keys : List K) (vals : List V) :
    (zipmap keys vals = none ↔ keys.length ≠ vals.length) ∧
    (∀ m, zipmap keys vals = some m →
      ∀ k, mapFind m k = lookupLast k (keys.zip vals)) := by
  constructor
  · constructor
    · intro h
      by_contra hlen
      simp [zipmap, hlen] at h
    · intro h
      simp [zipmap, h]
  · intro m hm k
    by_cases hlen : keys.length ≠ vals.length
    · simp [zipmap, hlen] at hm
    · simp only [zipmap, if_neg hlen, Option.some.injEq] at hm
      subst hm
      rw [mapFind_foldl]
      cases h : lookupLast k (keys.zip vals) with
      | some v => simp
      | none => simp [mapFind]

/-- Witness for C7 at `keys = [1, 2, 1]`, `vals = [10, 20, 30]`: the repeated
key `1` maps to `30`, the value at the later index. -/
theorem zipmap_spec_witness :
    mapFind [((1 : Int), (30 : Int)), (2, 20)] 1 =
      lookupLast 1 (List.zip [(1 : Int), 2, 1] [(10 : Int), 20, 30]) :=
  (zipmap_spec [1, 2, 1] [10, 20, 30]).2 [(1, 30), (2, 20)] (by decide) 1

/-- C8 fails on the code: at the mapping `{1 ↦ 10}` and key `1`, the key is
still present in `dissoc`'s result — `delete result[key]` destroys the value
the entry points to but never erases the entry — where the claim requires
key `1` to be absent from the result. -/
theorem dissoc_bug :
    mapFind (dissoc [((1 : Int), (10 : Int))] 1) 1 = some 10 ∧
      some (10 : Int) ≠ none := by
  decide

/-- C10: `slurp`'s result does not depend on its path argument — on any one
filesystem state it returns the content of the fixed name `"file.txt"`
whatever path it is given. -/
theorem slurp_path_independent (fs : FileSystem) (p1 p2 : String) :
    slurp fs p1 = slurp fs p2 :=
  rfl

end Sanity
